import Mathlib

/-!
Verification of the emsim event-patch construction, label discretization,
and Gaussian incidence-point predictor against their natural-language
specification.  Python / numpy / torch code is shallowly embedded: exact
rational or real arithmetic stands for float arithmetic, arrays become
functions or lists, and the opaque neural backbone plus linear head becomes
an arbitrary raw output vector.
-/

namespace Emsim

/-- The Python int() conversion truncates toward zero; on an exact rational
q = num/den (den > 0) this is truncating integer division of the numerator
by the denominator. -/
def pyInt (q : ℚ) : ℤ := q.num.tdiv q.den

/-- One axis of the error discretization in EMDataset.getItem (training.py
lines 120-126): bin = int(binCount*(v - rmin)/(rmax - rmin)), then
bin = max(bin, 0) and bin = min(bin, binCount - 1). -/
def binOf (v rmin rmax : ℚ) (binCount : ℕ) : ℤ :=
  min (max (pyInt ((binCount : ℚ) * (v - rmin) / (rmax - rmin))) 0) ((binCount : ℤ) - 1)

/-- The label discretizer of EMDataset.getItem (training.py lines 117-128),
parameterized over the calibrated range and bin count: returns
(xbin, ybin, err_ind) with err_ind = ybin*binCount + xbin. -/
def discretize (errX errY rmin rmax : ℚ) (binCount : ℕ) : ℤ × ℤ × ℤ :=
  (binOf errX rmin rmax binCount, binOf errY rmin rmax binCount,
   binOf errY rmin rmax binCount * (binCount : ℤ) + binOf errX rmin rmax binCount)

/-- The binning axis as described by the spec:
floor(binCount*(v - rmin)/(rmax - rmin)) clamped to the interval from 0 to
binCount - 1.  Stated with the mathematical floor, to be compared with the
truncating conversion of the source in binOf. -/
def binOfSpec (v rmin rmax : ℚ) (binCount : ℕ) : ℤ :=
  min (max ⌊(binCount : ℚ) * (v - rmin) / (rmax - rmin)⌋ 0) ((binCount : ℤ) - 1)

theorem pyInt_eq_floor_of_nonneg (q : ℚ) (hq : 0 ≤ q) : pyInt q = ⌊q⌋ := by
  rw [Rat.floor_def]
  exact Int.tdiv_eq_ediv (Rat.num_nonneg.mpr hq) (Int.natCast_nonneg q.den)

theorem pyInt_nonpos_of_neg (q : ℚ) (hq : q < 0) : pyInt q ≤ 0 := by
  unfold pyInt
  have hnum : (0 : ℤ) ≤ -q.num := by
    have : q.num ≤ 0 := Rat.num_nonpos.mpr hq.le
    omega
  have h1 : q.num.tdiv q.den = -((-q.num).tdiv q.den) := by
    rw [← Int.neg_tdiv, neg_neg]
  have h2 : (0 : ℤ) ≤ (-q.num).tdiv q.den :=
    Int.tdiv_nonneg hnum (Int.natCast_nonneg q.den)
  omega

/-- After clamping to the bin range, the truncating conversion and the
mathematical floor agree: for nonnegative arguments they coincide, and for
negative arguments both are clamped up to 0. -/
theorem clamped_pyInt_eq_clamped_floor (q : ℚ) (n : ℕ) :
    min (max (pyInt q) 0) ((n : ℤ) - 1) = min (max ⌊q⌋ 0) ((n : ℤ) - 1) := by
  rcases le_or_lt 0 q with h | h
  · rw [pyInt_eq_floor_of_nonneg q h]
  · have h1 := pyInt_nonpos_of_neg q h
    have h2 : ⌊q⌋ ≤ 0 := Int.floor_nonpos h.le
    omega

theorem binOf_eq_binOfSpec (v rmin rmax : ℚ) (n : ℕ) :
    binOf v rmin rmax n = binOfSpec v rmin rmax n :=
  clamped_pyInt_eq_clamped_floor _ n

theorem pyInt_natCast (n : ℕ) : pyInt (n : ℚ) = n := by
  simp [pyInt, Rat.num_natCast, Rat.den_natCast]

theorem binOf_concrete (v rmin rmax : ℚ) (n m : ℕ)
    (h : (n : ℚ) * (v - rmin) / (rmax - rmin) = (m : ℚ)) :
    binOf v rmin rmax n = min (max (m : ℤ) 0) ((n : ℤ) - 1) := by
  unfold binOf
  rw [h, pyInt_natCast]

/-- C3: for every continuous error input the bins of the discretizer satisfy
0 ≤ bin_x, bin_y < binCount, saturating at the boundary bins for
out-of-range inputs; in particular the continuous error (100, 0) with range
(-5, 5) and 10 bins lands in bin_x = 9. -/
theorem C3_discretizer_saturates :
    (∀ (errX errY rmin rmax : ℚ) (n : ℕ), 0 < n →
      0 ≤ (discretize errX errY rmin rmax n).1 ∧
      (discretize errX errY rmin rmax n).1 < (n : ℤ) ∧
      0 ≤ (discretize errX errY rmin rmax n).2.1 ∧
      (discretize errX errY rmin rmax n).2.1 < (n : ℤ)) ∧
    (discretize 100 0 (-5) 5 10).1 = 9 := by
  constructor
  · intro errX errY rmin rmax n hn
    have hn' : (1 : ℤ) ≤ (n : ℤ) := by exact_mod_cast hn
    unfold discretize binOf
    refine ⟨?_, ?_, ?_, ?_⟩ <;> simp only [] <;> omega
  · show binOf 100 (-5) 5 10 = 9
    rw [binOf_concrete 100 (-5) 5 10 105 (by norm_num)]
    decide

theorem C3_witness :
    0 < 10 ∧
    (0 ≤ (discretize 100 0 (-5) 5 10).1 ∧
     (discretize 100 0 (-5) 5 10).1 < (10 : ℤ) ∧
     0 ≤ (discretize 100 0 (-5) 5 10).2.1 ∧
     (discretize 100 0 (-5) 5 10).2.1 < (10 : ℤ)) :=
  ⟨by decide, C3_discretizer_saturates.1 100 0 (-5) 5 10 (by decide)⟩

/-- C4: for min < max the discretizer returns the clamped floor bins of the
spec and the row-major flat index ybin*binCount + xbin; in particular
(2, -1) with range (-5, 5) and 10 bins gives bins (7, 4) and flat index 47. -/
theorem C4_discretizer_clamped_floor :
    (∀ (errX errY rmin rmax : ℚ) (n : ℕ), rmin < rmax → 0 < n →
      discretize errX errY rmin rmax n =
        (binOfSpec errX rmin rmax n, binOfSpec errY rmin rmax n,
         binOfSpec errY rmin rmax n * (n : ℤ) + binOfSpec errX rmin rmax n)) ∧
    discretize 2 (-1) (-5) 5 10 = (7, 4, 47) := by
  constructor
  · intro errX errY rmin rmax n _ _
    unfold discretize
    rw [binOf_eq_binOfSpec, binOf_eq_binOfSpec]
  · show (binOf 2 (-5) 5 10, binOf (-1) (-5) 5 10,
        binOf (-1) (-5) 5 10 * (10 : ℤ) + binOf 2 (-5) 5 10) = (7, 4, 47)
    rw [binOf_concrete 2 (-5) 5 10 7 (by norm_num),
      binOf_concrete (-1) (-5) 5 10 4 (by norm_num)]
    decide

theorem C4_witness :
    ((-5 : ℚ) < 5 ∧ 0 < 10) ∧
    discretize 2 (-1) (-5) 5 10 =
      (binOfSpec 2 (-5) 5 10, binOfSpec (-1) (-5) 5 10,
       binOfSpec (-1) (-5) 5 10 * (10 : ℤ) + binOfSpec 2 (-5) 5 10) :=
  ⟨⟨by norm_num, by decide⟩,
   C4_discretizer_clamped_floor.1 2 (-1) (-5) 5 10 (by norm_num) (by decide)⟩

/-- The 101x101 event canvas of EMDataset.getItem (training.py lines 76-80):
all (row, col, counts) hits are scatter-added into a dense zero-initialized
array, accumulating counts that land on the same pixel.  The canvas is
modelled as a function on all of ℤ x ℤ that is zero off the hit support. -/
def canvas (hits : List (ℤ × ℤ × ℚ)) (r c : ℤ) : ℚ :=
  (hits.map fun h => if h.1 = r ∧ h.2.1 = c then h.2.2 else 0).sum

/-- The 11x11 search sub-array evt_arr[45:56, 45:56] used for peak finding
(training.py line 83), in the noise-disabled configuration. -/
def searchSub (hits : List (ℤ × ℤ × ℚ)) (r c : ℕ) : ℚ :=
  canvas hits (45 + (r : ℤ)) (45 + (c : ℤ))

/-- Row-major enumeration of the flat indices of an n x n array, unraveled to
(row, col) pairs exactly as np.unravel_index does for an n-column array. -/
def rowMajorIdx (n : ℕ) : List (ℕ × ℕ) :=
  (List.range (n * n)).map fun k => (k / n, k % n)

/-- One step of the np.argmax scan: the running best index is replaced only
when a strictly larger value appears, so the first occurrence of the
maximum (in row-major order) wins. -/
def argmaxStep (f : ℕ → ℕ → ℚ) (best y : ℕ × ℕ) : ℕ × ℕ :=
  if f best.1 best.2 < f y.1 y.2 then y else best

/-- np.unravel_index(np.argmax(a), a.shape) for an n x n array a given as a
function: scan the cells in row-major order keeping the first maximum.  For
a nonempty array the initial best (0, 0) of the scan is its first cell, so
starting from (0, 0) agrees with numpy. -/
def argmax2 (f : ℕ → ℕ → ℚ) (n : ℕ) : ℕ × ℕ :=
  (rowMajorIdx n).foldl (argmaxStep f) (0, 0)

/-- The peak shift of EMDataset.getItem (training.py lines 85-87):
(y_shift, x_shift) = argmax position of the 11x11 search window minus its
center (5, 5). -/
def peakShift (hits : List (ℤ × ℤ × ℚ)) : ℤ × ℤ :=
  (((argmax2 (searchSub hits) 11).1 : ℤ) - 5, ((argmax2 (searchSub hits) 11).2 : ℤ) - 5)

/-- The extracted patch of EMDataset.getItem (training.py line 93), with
noise disabled: entry (i, j) of the evtSize x evtSize slice of the canvas
whose corner is (50 + y_shift - delta, 50 + x_shift - delta) with
delta = int((evtSize - 1)/2). -/
def patchAt (hits : List (ℤ × ℤ × ℚ)) (evtSize : ℕ) (i j : ℕ) : ℚ :=
  canvas hits (50 + (peakShift hits).1 - (((evtSize - 1) / 2 : ℕ) : ℤ) + (i : ℤ))
    (50 + (peakShift hits).2 - (((evtSize - 1) / 2 : ℕ) : ℤ) + (j : ℤ))

theorem mem_rowMajorIdx (n : ℕ) (y : ℕ × ℕ) :
    y ∈ rowMajorIdx n ↔ y.1 < n ∧ y.2 < n := by
  constructor
  · rintro hy
    simp only [rowMajorIdx, List.mem_map, List.mem_range] at hy
    obtain ⟨k, hk, rfl⟩ := hy
    have hn : 0 < n := by
      rcases Nat.eq_zero_or_pos n with h | h
      · subst h; omega
      · exact h
    refine ⟨?_, Nat.mod_lt _ hn⟩
    exact Nat.div_lt_of_lt_mul hk
  · rintro ⟨h1, h2⟩
    simp only [rowMajorIdx, List.mem_map, List.mem_range]
    refine ⟨y.2 + y.1 * n, ?_, ?_⟩
    · have hstep : y.1 * n + n ≤ n * n := by
        have : (y.1 + 1) * n ≤ n * n := Nat.mul_le_mul_right n h1
        calc y.1 * n + n = (y.1 + 1) * n := by ring
        _ ≤ n * n := this
      omega
    · have hdiv : (y.2 + y.1 * n) / n = y.1 := by
        rw [Nat.add_mul_div_right _ _ (by omega : 0 < n), Nat.div_eq_of_lt h2]
        omega
      have hmod : (y.2 + y.1 * n) % n = y.2 := by
        rw [Nat.add_mul_mod_self_right, Nat.mod_eq_of_lt h2]
      rw [hdiv, hmod]

theorem foldl_argmaxStep_keep (f : ℕ → ℕ → ℚ) (l : List (ℕ × ℕ)) (b : ℕ × ℕ)
    (h : ∀ y ∈ l, f y.1 y.2 ≤ f b.1 b.2) :
    l.foldl (argmaxStep f) b = b := by
  induction l with
  | nil => rfl
  | cons y t ih =>
    have hstep : argmaxStep f b y = b := by
      unfold argmaxStep
      rw [if_neg (not_lt.mpr (h y (List.mem_cons_self _ _)))]
    rw [List.foldl_cons, hstep]
    exact ih fun z hz => h z (List.mem_cons_of_mem _ hz)

theorem foldl_argmaxStep_spike (f : ℕ → ℕ → ℚ) (s : ℕ × ℕ) :
    ∀ (l : List (ℕ × ℕ)) (b : ℕ × ℕ), s ∈ l → f b.1 b.2 < f s.1 s.2 →
      (∀ y ∈ l, y = s ∨ f y.1 y.2 < f s.1 s.2) →
      l.foldl (argmaxStep f) b = s := by
  intro l
  induction l with
  | nil => intro b hs; exact absurd hs (List.not_mem_nil s)
  | cons y t ih =>
    intro b hs hb htop
    by_cases hy : y = s
    · subst hy
      have hstep : argmaxStep f b y = y := by
        unfold argmaxStep
        rw [if_pos hb]
      rw [List.foldl_cons, hstep]
      refine foldl_argmaxStep_keep f t y fun z hz => ?_
      rcases htop z (List.mem_cons_of_mem _ hz) with h | h
      · rw [h]
      · exact h.le
    · have hys : f y.1 y.2 < f s.1 s.2 := by
        rcases htop y (List.mem_cons_self _ _) with h | h
        · exact absurd h hy
        · exact h
      have hs' : s ∈ t := by
        rcases List.mem_cons.mp hs with h | h
        · exact absurd h.symm hy
        · exact h
      rw [List.foldl_cons]
      have hb' : f (argmaxStep f b y).1 (argmaxStep f b y).2 < f s.1 s.2 := by
        unfold argmaxStep
        split
        · exact hys
        · exact hb
      exact ih (argmaxStep f b y) hs' hb' fun z hz => htop z (List.mem_cons_of_mem _ hz)

/-- An n x n array with a unique strict maximum at s has its row-major
first-occurrence argmax at s. -/
theorem argmax2_spike (f : ℕ → ℕ → ℚ) (n : ℕ) (s : ℕ × ℕ)
    (hr : s.1 < n) (hc : s.2 < n)
    (htop : ∀ y : ℕ × ℕ, y.1 < n → y.2 < n → y = s ∨ f y.1 y.2 < f s.1 s.2) :
    argmax2 f n = s := by
  by_cases hs0 : s = (0, 0)
  · subst hs0
    refine foldl_argmaxStep_keep f _ _ fun z hz => ?_
    obtain ⟨hz1, hz2⟩ := (mem_rowMajorIdx n z).mp hz
    rcases htop z hz1 hz2 with h | h
    · rw [h]
    · exact h.le
  · have hn : 0 < n := by omega
    have h0 : f 0 0 < f s.1 s.2 := by
      rcases htop (0, 0) hn hn with h | h
      · exact absurd h.symm hs0
      · exact h
    refine foldl_argmaxStep_spike f s _ (0, 0) ((mem_rowMajorIdx n s).mpr ⟨hr, hc⟩) h0
      fun y hy => ?_
    obtain ⟨hy1, hy2⟩ := (mem_rowMajorIdx n y).mp hy
    exact htop y hy1 hy2

/-- The canvas built from a single hit holds the count of that hit at its pixel and
zero everywhere else. -/
theorem canvas_single (r0 c0 : ℤ) (v : ℚ) (r c : ℤ) :
    canvas [(r0, c0, v)] r c = if r0 = r ∧ c0 = c then v else 0 := by
  simp [canvas]

theorem canvas_nil (r c : ℤ) : canvas [] r c = 0 := rfl

/-- C7: with noise disabled the peak shift is the row-major first-occurrence
argmax of the 11x11 search sub-array minus its center (5, 5); for the single
hit of count 5 at (50, 50) the shift is (0, 0) and the extracted 5x5 patch
has value 5 at its center (2, 2) and 0 elsewhere. -/
theorem C7_peak_shift_argmax :
    (∀ hits : List (ℤ × ℤ × ℚ),
      (∀ h ∈ hits, 45 ≤ h.1 ∧ h.1 ≤ 55 ∧ 45 ≤ h.2.1 ∧ h.2.1 ≤ 55) →
      peakShift hits =
        (((argmax2 (searchSub hits) 11).1 : ℤ) - 5,
         ((argmax2 (searchSub hits) 11).2 : ℤ) - 5)) ∧
    peakShift [((50 : ℤ), (50 : ℤ), (5 : ℚ))] = (0, 0) ∧
    (∀ i j : ℕ, i < 5 → j < 5 →
      patchAt [((50 : ℤ), (50 : ℤ), (5 : ℚ))] 5 i j =
        if i = 2 ∧ j = 2 then 5 else 0) := by
  have hargmax : argmax2 (searchSub [((50 : ℤ), (50 : ℤ), (5 : ℚ))]) 11 = (5, 5) := by
    refine argmax2_spike _ 11 (5, 5) (by omega) (by omega) fun y hy1 hy2 => ?_
    by_cases hys : y = (5, 5)
    · exact Or.inl hys
    · refine Or.inr ?_
      have hv5 : searchSub [((50 : ℤ), (50 : ℤ), (5 : ℚ))] 5 5 = 5 := by
        unfold searchSub
        rw [canvas_single]
        norm_num
      have hv0 : searchSub [((50 : ℤ), (50 : ℤ), (5 : ℚ))] y.1 y.2 = 0 := by
        unfold searchSub
        rw [canvas_single]
        have : ¬ ((50 : ℤ) = 45 + (y.1 : ℤ) ∧ (50 : ℤ) = 45 + (y.2 : ℤ)) := by
          intro hcon
          apply hys
          have e1 : y.1 = 5 := by omega
          have e2 : y.2 = 5 := by omega
          exact Prod.ext e1 e2
        rw [if_neg this]
      rw [hv5, hv0]
      norm_num
  have hps : peakShift [((50 : ℤ), (50 : ℤ), (5 : ℚ))] = (0, 0) := by
    unfold peakShift
    rw [hargmax]
    norm_num
  refine ⟨fun hits _ => rfl, hps, fun i j hi hj => ?_⟩
  unfold patchAt
  rw [hps]
  rw [canvas_single]
  by_cases hij : i = 2 ∧ j = 2
  · obtain ⟨rfl, rfl⟩ := hij
    norm_num
  · rw [if_neg hij, if_neg ?_]
    intro hcon
    apply hij
    constructor
    · omega
    · omega

theorem C7_witness :
    (∀ h ∈ [((50 : ℤ), (50 : ℤ), (5 : ℚ))],
      45 ≤ h.1 ∧ h.1 ≤ 55 ∧ 45 ≤ h.2.1 ∧ h.2.1 ≤ 55) ∧
    peakShift [((50 : ℤ), (50 : ℤ), (5 : ℚ))] =
      (((argmax2 (searchSub [((50 : ℤ), (50 : ℤ), (5 : ℚ))]) 11).1 : ℤ) - 5,
       ((argmax2 (searchSub [((50 : ℤ), (50 : ℤ), (5 : ℚ))]) 11).2 : ℤ) - 5) := by
  have hmem : ∀ h ∈ [((50 : ℤ), (50 : ℤ), (5 : ℚ))],
      45 ≤ h.1 ∧ h.1 ≤ 55 ∧ 45 ≤ h.2.1 ∧ h.2.1 ≤ 55 := by
    intro h hh
    rw [List.mem_singleton] at hh
    subst hh
    refine ⟨by norm_num, by norm_num, by norm_num, by norm_num⟩
  exact ⟨hmem, C7_peak_shift_argmax.1 _ hmem⟩

/-- C8: an empty hit list yields the degenerate peak shift (-5, -5) (the
argmax of the all-zero search window is its first cell) and an all-zero
patch, with no exception: the embedded extractor is a total function. -/
theorem C8_empty_hits_degenerate :
    peakShift ([] : List (ℤ × ℤ × ℚ)) = (-5, -5) ∧
    ∀ (evtSize i j : ℕ), patchAt ([] : List (ℤ × ℤ × ℚ)) evtSize i j = 0 := by
  have hargmax : argmax2 (searchSub ([] : List (ℤ × ℤ × ℚ))) 11 = (0, 0) := by
    refine foldl_argmaxStep_keep _ _ _ fun z _ => ?_
    unfold searchSub
    rw [canvas_nil, canvas_nil]
  constructor
  · unfold peakShift
    rw [hargmax]
    norm_num
  · intro evtSize i j
    unfold patchAt
    rw [canvas_nil]

/-- Two-by-two real matrix in row-major order, standing for the 2x2 tensors
of the incidence predictor. -/
structure Mat2 where
  m00 : ℝ
  m01 : ℝ
  m10 : ℝ
  m11 : ℝ

def Mat2.mulM (A B : Mat2) : Mat2 :=
  ⟨A.m00 * B.m00 + A.m01 * B.m10, A.m00 * B.m01 + A.m01 * B.m11,
   A.m10 * B.m00 + A.m11 * B.m10, A.m10 * B.m01 + A.m11 * B.m11⟩

def Mat2.addM (A B : Mat2) : Mat2 :=
  ⟨A.m00 + B.m00, A.m01 + B.m01, A.m10 + B.m10, A.m11 + B.m11⟩

def Mat2.smulM (t : ℝ) (A : Mat2) : Mat2 :=
  ⟨t * A.m00, t * A.m01, t * A.m10, t * A.m11⟩

def Mat2.transposeM (A : Mat2) : Mat2 := ⟨A.m00, A.m10, A.m01, A.m11⟩

def Mat2.eye : Mat2 := ⟨1, 0, 0, 1⟩

/-- torch.diag_embed of a two-component vector. -/
def Mat2.diagEmbed (a b : ℝ) : Mat2 := ⟨a, 0, 0, b⟩

def Mat2.traceM (A : Mat2) : ℝ := A.m00 + A.m11

def Mat2.detM (A : Mat2) : ℝ := A.m00 * A.m11 - A.m01 * A.m10

/-- The quadratic form v ↦ vᵀ A v on explicit two-component vectors. -/
def Mat2.quadForm (A : Mat2) (v0 v1 : ℝ) : ℝ :=
  v0 * (A.m00 * v0 + A.m01 * v1) + v1 * (A.m10 * v0 + A.m11 * v1)

/-- Value of the characteristic polynomial det(A - t I) at t; its roots are
the eigenvalues of A. -/
def Mat2.charValue (A : Mat2) (t : ℝ) : ℝ :=
  (A.m00 - t) * (A.m11 - t) - A.m01 * A.m10

/-- The smaller root of the characteristic polynomial of A (real whenever
the discriminant is nonnegative, as for symmetric A). -/
noncomputable def Mat2.eigLo (A : Mat2) : ℝ :=
  (A.traceM - Real.sqrt (A.traceM ^ 2 - 4 * A.detM)) / 2

/-- The larger root of the characteristic polynomial of A. -/
noncomputable def Mat2.eigHi (A : Mat2) : ℝ :=
  (A.traceM + Real.sqrt (A.traceM ^ 2 - 4 * A.detM)) / 2

theorem Mat2.charValue_eq (A : Mat2) (t : ℝ) :
    A.charValue t = t ^ 2 - A.traceM * t + A.detM := by
  unfold Mat2.charValue Mat2.traceM Mat2.detM
  ring

/-- torch.nn.functional.sigmoid, the logistic squashing function. -/
noncomputable def sigmoid (x : ℝ) : ℝ := 1 / (1 + Real.exp (-x))

theorem sigmoid_pos (x : ℝ) : 0 < sigmoid x := by
  unfold sigmoid
  positivity

theorem sigmoid_lt_one (x : ℝ) : sigmoid x < 1 := by
  unfold sigmoid
  rw [div_lt_one (by positivity)]
  have := Real.exp_pos (-x)
  linarith

/-- Configuration state of GaussianFullRankIncidencePointPredictor
(incidence_predictor.py).  The backbone and the linear prediction head are
opaque collaborators, so a forward pass is parameterized directly by the raw
head output vector. -/
structure GaussianPredictor where
  mean_parameterization : String
  diagonal_covariance : Bool
  eps : ℝ

/-- GaussianFullRankIncidencePointPredictor.__init__ (incidence_predictor.py
lines 8-20): the source assigns self.eps = 1e-6 literally, ignoring the eps
constructor argument. -/
def initPredictor (mean_parameterization : String) (diagonal_covariance : Bool)
    (eps : ℝ) : GaussianPredictor :=
  { mean_parameterization := mean_parameterization,
    diagonal_covariance := diagonal_covariance,
    eps := 1e-6 }

/-- The lower-triangular matrix built from the raw head outputs
(incidence_predictor.py lines 48-52): diag_embed of the exponentiated
Cholesky diagonal, and in full-rank mode the raw off-diagonal output written
to position (1, 0) through tril_indices(2, 2, offset=-1). -/
noncomputable def rawCholesky (p : GaussianPredictor) (raw : ℕ → ℝ) : Mat2 :=
  { m00 := Real.exp (raw 2), m01 := 0,
    m10 := if p.diagonal_covariance then 0 else raw 4,
    m11 := Real.exp (raw 3) }

/-- Mean vector and Cholesky factor after the mean-parameterization branch
(incidence_predictor.py lines 55-61).  patch_shape = x.shape[-2:] = (hgt, wid),
so under "sigmoid" the squashed mean is scaled by diag(hgt, wid) and the
Cholesky factor is premultiplied by diag(1/hgt, 1/wid); any other mode leaves
the raw values untouched. -/
noncomputable def parameterized (p : GaussianPredictor) (hgt wid : ℕ) (raw : ℕ → ℝ) :
    (ℝ × ℝ) × Mat2 :=
  if p.mean_parameterization = "sigmoid" then
    (((hgt : ℝ) * sigmoid (raw 0), (wid : ℝ) * sigmoid (raw 1)),
     (Mat2.diagEmbed (1 / (hgt : ℝ)) (1 / (wid : ℝ))).mulM (rawCholesky p raw))
  else
    ((raw 0, raw 1), rawCholesky p raw)

/-- The returned torch.distributions.MultivariateNormal, recorded by its
mean and scale_tril parameters. -/
structure MultivariateNormal where
  mean0 : ℝ
  mean1 : ℝ
  scale_tril : Mat2

/-- GaussianFullRankIncidencePointPredictor.forward (incidence_predictor.py
lines 33-71) for an input image of height hgt and width wid: self.eps * I is
added to the (possibly rescaled) Cholesky factor before the distribution is
constructed. -/
noncomputable def forward (p : GaussianPredictor) (hgt wid : ℕ) (raw : ℕ → ℝ) :
    MultivariateNormal :=
  { mean0 := (parameterized p hgt wid raw).1.1,
    mean1 := (parameterized p hgt wid raw).1.2,
    scale_tril := ((parameterized p hgt wid raw).2).addM (Mat2.smulM p.eps Mat2.eye) }

/-- Covariance matrix of the returned distribution: scale_tril times its
transpose. -/
def MultivariateNormal.covariance (d : MultivariateNormal) : Mat2 :=
  d.scale_tril.mulM d.scale_tril.transposeM

/-- In every configuration, the regularized scale_tril is lower triangular
with strictly positive diagonal entries (and zero below the diagonal in
diagonal-covariance mode), provided the image dimensions are positive. -/
theorem scale_tril_structure (p : GaussianPredictor) (hgt wid : ℕ)
    (raw : ℕ → ℝ) (hh : 0 < hgt) (hw : 0 < wid) (he : p.eps = 1e-6) :
    (forward p hgt wid raw).scale_tril.m01 = 0 ∧
    0 < (forward p hgt wid raw).scale_tril.m00 ∧
    0 < (forward p hgt wid raw).scale_tril.m11 ∧
    (p.diagonal_covariance = true → (forward p hgt wid raw).scale_tril.m10 = 0) := by
  have hhr : (0 : ℝ) < (hgt : ℝ) := by exact_mod_cast hh
  have hwr : (0 : ℝ) < (wid : ℝ) := by exact_mod_cast hw
  have he2 := Real.exp_pos (raw 2)
  have he3 := Real.exp_pos (raw 3)
  have hih : 0 < 1 / (hgt : ℝ) := by positivity
  have hiw : 0 < 1 / (wid : ℝ) := by positivity
  by_cases hs : p.mean_parameterization = "sigmoid"
  · simp only [forward, parameterized, rawCholesky, if_pos hs, Mat2.addM,
      Mat2.mulM, Mat2.smulM, Mat2.diagEmbed, Mat2.eye, he]
    refine ⟨by ring, ?_, ?_, fun hdc => ?_⟩
    · have := mul_pos hih he2
      nlinarith
    · have := mul_pos hiw he3
      nlinarith
    · simp [hdc]
  · simp only [forward, parameterized, rawCholesky, if_neg hs, Mat2.addM,
      Mat2.smulM, Mat2.eye, he]
    refine ⟨by ring, by nlinarith, by nlinarith, fun hdc => ?_⟩
    simp [hdc]

/-- For a lower-triangular 2x2 matrix L with strictly positive diagonal,
L Lᵀ is symmetric and positive-definite: positive trace and determinant,
two strictly positive eigenvalues (roots of the characteristic polynomial),
and a positive-definite quadratic form. -/
theorem lowerTri_mul_transpose_posdef (L : Mat2) (h01 : L.m01 = 0)
    (h00 : 0 < L.m00) (h11 : 0 < L.m11) :
    (L.mulM L.transposeM).m01 = (L.mulM L.transposeM).m10 ∧
    0 < (L.mulM L.transposeM).traceM ∧
    0 < (L.mulM L.transposeM).detM ∧
    (L.mulM L.transposeM).charValue (L.mulM L.transposeM).eigLo = 0 ∧
    (L.mulM L.transposeM).charValue (L.mulM L.transposeM).eigHi = 0 ∧
    0 < (L.mulM L.transposeM).eigLo ∧
    0 < (L.mulM L.transposeM).eigHi ∧
    (∀ v0 v1 : ℝ, ¬(v0 = 0 ∧ v1 = 0) →
      0 < (L.mulM L.transposeM).quadForm v0 v1) := by
  obtain ⟨a, z, c, b⟩ := L
  simp only at h01 h00 h11
  subst h01
  have hM00 : (Mat2.mulM ⟨a, 0, c, b⟩ (Mat2.transposeM ⟨a, 0, c, b⟩)).m00 = a * a := by
    simp only [Mat2.mulM, Mat2.transposeM]
    ring
  have hsym : (Mat2.mulM ⟨a, 0, c, b⟩ (Mat2.transposeM ⟨a, 0, c, b⟩)).m01 =
      (Mat2.mulM ⟨a, 0, c, b⟩ (Mat2.transposeM ⟨a, 0, c, b⟩)).m10 := by
    simp only [Mat2.mulM, Mat2.transposeM]
    ring
  have htr : (Mat2.mulM ⟨a, 0, c, b⟩ (Mat2.transposeM ⟨a, 0, c, b⟩)).traceM =
      a * a + (c * c + b * b) := by
    simp only [Mat2.mulM, Mat2.transposeM, Mat2.traceM]
    ring
  have hdet : (Mat2.mulM ⟨a, 0, c, b⟩ (Mat2.transposeM ⟨a, 0, c, b⟩)).detM =
      (a * b) * (a * b) := by
    simp only [Mat2.mulM, Mat2.transposeM, Mat2.detM]
    ring
  have htrpos : 0 < a * a + (c * c + b * b) := by nlinarith
  have hdetpos : 0 < (a * b) * (a * b) := by positivity
  have hdiscnn : 0 ≤ (a * a + (c * c + b * b)) ^ 2 - 4 * ((a * b) * (a * b)) := by
    nlinarith [sq_nonneg (a * a - b * b + c * c), sq_nonneg (b * c)]
  have hdisclt : (a * a + (c * c + b * b)) ^ 2 - 4 * ((a * b) * (a * b)) <
      (a * a + (c * c + b * b)) ^ 2 := by nlinarith
  have hs2 : Real.sqrt ((a * a + (c * c + b * b)) ^ 2 - 4 * ((a * b) * (a * b))) ^ 2 =
      (a * a + (c * c + b * b)) ^ 2 - 4 * ((a * b) * (a * b)) :=
    Real.sq_sqrt hdiscnn
  have hslt : Real.sqrt ((a * a + (c * c + b * b)) ^ 2 - 4 * ((a * b) * (a * b))) <
      a * a + (c * c + b * b) := by
    have h1 : Real.sqrt ((a * a + (c * c + b * b)) ^ 2 - 4 * ((a * b) * (a * b))) <
        Real.sqrt ((a * a + (c * c + b * b)) ^ 2) :=
      Real.sqrt_lt_sqrt hdiscnn hdisclt
    rwa [Real.sqrt_sq htrpos.le] at h1
  have hsnn := Real.sqrt_nonneg
    ((a * a + (c * c + b * b)) ^ 2 - 4 * ((a * b) * (a * b)))
  refine ⟨hsym, ?_, ?_, ?_, ?_, ?_, ?_, ?_⟩
  · rw [htr]; exact htrpos
  · rw [hdet]; exact hdetpos
  · rw [Mat2.charValue_eq]
    unfold Mat2.eigLo
    rw [htr, hdet]
    linear_combination (1 / 4 : ℝ) * hs2
  · rw [Mat2.charValue_eq]
    unfold Mat2.eigHi
    rw [htr, hdet]
    linear_combination (1 / 4 : ℝ) * hs2
  · unfold Mat2.eigLo
    rw [htr, hdet]
    linarith
  · unfold Mat2.eigHi
    rw [htr, hdet]
    linarith
  · intro v0 v1 hv
    have hq : (Mat2.mulM ⟨a, 0, c, b⟩ (Mat2.transposeM ⟨a, 0, c, b⟩)).quadForm v0 v1 =
        (a * v0 + c * v1) ^ 2 + (b * v1) ^ 2 := by
      simp only [Mat2.mulM, Mat2.transposeM, Mat2.quadForm]
      ring
    rw [hq]
    by_cases hv1 : v1 = 0
    · subst hv1
      have hv0 : v0 ≠ 0 := fun h0 => hv ⟨h0, rfl⟩
      have : 0 < (a * v0) ^ 2 := by positivity
      nlinarith
    · have : 0 < (b * v1) ^ 2 := by positivity
      nlinarith [sq_nonneg (a * v0 + c * v1)]

/-- For a 2x2 diagonal matrix with strictly positive diagonal, L Lᵀ is
diagonal with strictly positive diagonal entries. -/
theorem diag_mul_transpose (L : Mat2) (h01 : L.m01 = 0) (h10 : L.m10 = 0)
    (h00 : 0 < L.m00) (h11 : 0 < L.m11) :
    (L.mulM L.transposeM).m01 = 0 ∧ (L.mulM L.transposeM).m10 = 0 ∧
    0 < (L.mulM L.transposeM).m00 ∧ 0 < (L.mulM L.transposeM).m11 := by
  obtain ⟨a, z, w, b⟩ := L
  simp only at h01 h10 h00 h11
  subst h01
  subst h10
  simp only [Mat2.mulM, Mat2.transposeM]
  refine ⟨by ring, by ring, by nlinarith, by nlinarith⟩

/-- Covariance of the full-rank (diagonal_covariance = false) predictor at a
given configuration and input. -/
noncomputable def fullRankCov (mp : String) (e : ℝ) (hgt wid : ℕ)
    (raw : ℕ → ℝ) : Mat2 :=
  (forward (initPredictor mp false e) hgt wid raw).covariance

/-- Symmetry plus strict positive-definiteness of a 2x2 matrix: positive
trace and determinant, both eigenvalues (roots of the characteristic
polynomial) strictly positive, and a positive-definite quadratic form. -/
def posDefProps (M : Mat2) : Prop :=
  M.m01 = M.m10 ∧ 0 < M.traceM ∧ 0 < M.detM ∧
  M.charValue M.eigLo = 0 ∧ M.charValue M.eigHi = 0 ∧
  0 < M.eigLo ∧ 0 < M.eigHi ∧
  ∀ v0 v1 : ℝ, ¬(v0 = 0 ∧ v1 = 0) → 0 < M.quadForm v0 v1

/-- C1: for every image shape and every raw head output (including all
zeros), the covariance of the distribution returned by the full-rank predictor is
symmetric positive-definite: all its eigenvalues are strictly positive. -/
theorem C1_fullrank_covariance_posdef (mp : String) (e : ℝ) (hgt wid : ℕ)
    (raw : ℕ → ℝ) (hh : 0 < hgt) (hw : 0 < wid) :
    posDefProps (fullRankCov mp e hgt wid raw) := by
  obtain ⟨h01, h00, h11, _⟩ :=
    scale_tril_structure (initPredictor mp false e) hgt wid raw hh hw rfl
  exact lowerTri_mul_transpose_posdef _ h01 h00 h11

theorem C1_witness :
    0 < 2 ∧ 0 < 2 ∧ posDefProps (fullRankCov "sigmoid" (1e-6) 2 2 (fun _ => 0)) :=
  ⟨by decide, by decide,
   C1_fullrank_covariance_posdef "sigmoid" (1e-6) 2 2 (fun _ => 0)
     (by decide) (by decide)⟩

/-- Covariance of the predictor in diagonal-covariance mode at a given
configuration and input. -/
noncomputable def diagCov (mp : String) (e : ℝ) (hgt wid : ℕ)
    (raw : ℕ → ℝ) : Mat2 :=
  (forward (initPredictor mp true e) hgt wid raw).covariance

/-- C2 (amended): in diagonal-covariance mode the returned covariance is
diagonal with strictly positive diagonal entries, for every image shape and
raw head output.  The claimed lower bound epsilon on the entries does not
hold (see the counterexample): entries can be arbitrarily close to 0. -/
theorem C2_diag_covariance_positive (mp : String) (e : ℝ) (hgt wid : ℕ)
    (raw : ℕ → ℝ) (hh : 0 < hgt) (hw : 0 < wid) :
    (diagCov mp e hgt wid raw).m01 = 0 ∧ (diagCov mp e hgt wid raw).m10 = 0 ∧
    0 < (diagCov mp e hgt wid raw).m00 ∧ 0 < (diagCov mp e hgt wid raw).m11 := by
  obtain ⟨h01, h00, h11, hdc⟩ :=
    scale_tril_structure (initPredictor mp true e) hgt wid raw hh hw rfl
  exact diag_mul_transpose _ h01 (hdc rfl) h00 h11

theorem C2_witness :
    0 < 2 ∧ 0 < 2 ∧
    ((diagCov "sigmoid" (1e-6) 2 2 (fun _ => 0)).m01 = 0 ∧
     (diagCov "sigmoid" (1e-6) 2 2 (fun _ => 0)).m10 = 0 ∧
     0 < (diagCov "sigmoid" (1e-6) 2 2 (fun _ => 0)).m00 ∧
     0 < (diagCov "sigmoid" (1e-6) 2 2 (fun _ => 0)).m11) :=
  ⟨by decide, by decide,
   C2_diag_covariance_positive "sigmoid" (1e-6) 2 2 (fun _ => 0)
     (by decide) (by decide)⟩

theorem exp_ten_gt : (10000 : ℝ) < Real.exp 10 := by
  have h1 : (2.7 : ℝ) < Real.exp 1 := by
    have := Real.exp_one_gt_d9
    norm_num at this ⊢
    linarith
  have h3 : (Real.exp 1) ^ (10 : ℕ) = Real.exp 10 := by
    rw [← Real.exp_nat_mul]
    norm_num
  have h4 : (2.7 : ℝ) ^ (10 : ℕ) < (Real.exp 1) ^ (10 : ℕ) :=
    pow_lt_pow_left h1 (by norm_num) (by norm_num)
  have h2 : (10000 : ℝ) < (2.7 : ℝ) ^ (10 : ℕ) := by norm_num
  linarith [h3 ▸ h4]

theorem exp_neg_ten_lt : Real.exp (-10) < 1 / 10000 := by
  rw [Real.exp_neg]
  have h5 := exp_ten_gt
  have h6 : (Real.exp 10)⁻¹ < (10000 : ℝ)⁻¹ := by
    apply inv_lt_inv_of_lt (by norm_num) h5
  linarith [h6]

/-- C2 counterexample: in diagonal-covariance mode (default sigmoid mean
parameterization, 2x2 patch) the raw output with Cholesky-diagonal entries
-10 produces a covariance entry ((1/2)exp(-10) + 1e-6)^2 strictly below the
claimed lower bound epsilon = 1e-6. -/
theorem C2_counterexample :
    (diagCov "sigmoid" (1e-6) 2 2 (fun i => if 2 ≤ i then (-10 : ℝ) else 0)).m00
      < 1e-6 := by
  have hexp := exp_neg_ten_lt
  have hpos := Real.exp_pos (-10 : ℝ)
  unfold diagCov MultivariateNormal.covariance forward parameterized
    rawCholesky initPredictor Mat2.mulM Mat2.transposeM Mat2.addM Mat2.smulM
    Mat2.diagEmbed Mat2.eye
  norm_num
  nlinarith [hexp, hpos]

/-- Mean bounds of the sigmoid-parameterized predictor: each mean coordinate
scaled into the patch extent, coordinate 0 by the patch height and
coordinate 1 by the patch width. -/
def sigmoidMeanBounds (dc : Bool) (e : ℝ) (hgt wid : ℕ) (raw : ℕ → ℝ) : Prop :=
  0 ≤ (forward (initPredictor "sigmoid" dc e) hgt wid raw).mean0 ∧
  (forward (initPredictor "sigmoid" dc e) hgt wid raw).mean0 ≤ (hgt : ℝ) ∧
  0 ≤ (forward (initPredictor "sigmoid" dc e) hgt wid raw).mean1 ∧
  (forward (initPredictor "sigmoid" dc e) hgt wid raw).mean1 ≤ (wid : ℝ)

/-- C5 (amended): under the "sigmoid" mean parameterization, the mean of the
returned distribution lies within the patch extent, its first coordinate in
the interval from 0 to the patch height and its second coordinate in the
interval from 0 to the patch width (the source scales coordinate 0 by
patch_shape[0] = height, not by the width as the claim stated). -/
theorem C5_sigmoid_mean_in_patch (dc : Bool) (e : ℝ) (hgt wid : ℕ)
    (raw : ℕ → ℝ) : sigmoidMeanBounds dc e hgt wid raw := by
  unfold sigmoidMeanBounds forward parameterized initPredictor
  simp only [if_pos]
  refine ⟨mul_nonneg (Nat.cast_nonneg hgt) (sigmoid_pos _).le,
    mul_le_of_le_one_right (Nat.cast_nonneg hgt) (sigmoid_lt_one _).le,
    mul_nonneg (Nat.cast_nonneg wid) (sigmoid_pos _).le,
    mul_le_of_le_one_right (Nat.cast_nonneg wid) (sigmoid_lt_one _).le⟩

/-- C5 counterexample: on a non-square 3x2 patch (height 3, width 2 = the
claimed bound on the first mean coordinate) the raw mean output (1, 0) puts
the first mean coordinate at 3*sigmoid(1) > 2, outside the claimed interval
from 0 to the patch width. -/
theorem C5_counterexample :
    (2 : ℝ) < (forward (initPredictor "sigmoid" false (1e-6)) 3 2
      (fun i => if i = 0 then (1 : ℝ) else 0)).mean0 := by
  have h2 : (2 : ℝ) < Real.exp 1 := by
    have := Real.exp_one_gt_d9
    norm_num at this ⊢
    linarith
  have h1 : Real.exp (-1) < 1 / 2 := by
    rw [Real.exp_neg]
    have h3 : (Real.exp 1)⁻¹ < (2 : ℝ)⁻¹ := by
      apply inv_lt_inv_of_lt (by norm_num) h2
    linarith [h3]
  have hd : (0 : ℝ) < 1 + Real.exp (-1) := by positivity
  have hinv : (1 + Real.exp (-1)) * (1 + Real.exp (-1))⁻¹ = 1 :=
    mul_inv_cancel₀ (ne_of_gt hd)
  have ht : (0 : ℝ) < (1 + Real.exp (-1))⁻¹ := by positivity
  unfold forward parameterized initPredictor sigmoid
  norm_num
  nlinarith [h1, hd, hinv, ht]

/-- C6: the constructor stores eps = 1e-6 regardless of its eps argument, so
exactly 1e-6 * I is added to the (possibly rescaled) Cholesky factor, and two
predictors differing only in the eps argument return identical distributions
on the same input and raw outputs. -/
theorem C6_eps_hardcoded (mp : String) (dc : Bool) (e e2 : ℝ) (hgt wid : ℕ)
    (raw : ℕ → ℝ) :
    (initPredictor mp dc e).eps = 1e-6 ∧
    (forward (initPredictor mp dc e) hgt wid raw).scale_tril =
      ((parameterized (initPredictor mp dc e) hgt wid raw).2).addM
        (Mat2.smulM (1e-6) Mat2.eye) ∧
    forward (initPredictor mp dc e) hgt wid raw =
      forward (initPredictor mp dc e2) hgt wid raw :=
  ⟨rfl, rfl, rfl⟩

/-- A sparse torch.Tensor in COO form: dense shape, one coordinate tuple
per stored entry (the transpose of the sparseDim x nnz torch indices layout),
and one value row per stored entry.  scalarValues records whether the
original values tensor was 1-D (fully sparse tensor; each row is then a
singleton, matching the unsqueeze(-1) in the source) or 2-D (trailing dense
dimension). -/
structure TorchSparse where
  shape : List ℕ
  sparseIndices : List (List ℕ)
  values : List (List ℚ)
  scalarValues : Bool
deriving DecidableEq

/-- An spconv.SparseConvTensor: per-entry feature rows, per-entry
[batch, spatial...] coordinates, spatial shape, and batch size. -/
structure SparseConvTensor where
  features : List (List ℚ)
  indices : List (List ℕ)
  spatialShape : List ℕ
  batchSize : ℕ
deriving DecidableEq

/-- torch_sparse_to_spconv (sparse_utils.py lines 11-31): spatial shape is
shape[1:-1] and batch size shape[0]; if the values tensor is 1-D it is
unsqueezed to one column and the last coordinate row -- the channel
coordinate -- is dropped from the indices (indices_th[:-1]). -/
def torch_sparse_to_spconv (t : TorchSparse) : SparseConvTensor :=
  if t.scalarValues then
    { features := t.values,
      indices := t.sparseIndices.map List.dropLast,
      spatialShape := (t.shape.drop 1).dropLast,
      batchSize := t.shape.headD 0 }
  else
    { features := t.values,
      indices := t.sparseIndices,
      spatialShape := (t.shape.drop 1).dropLast,
      batchSize := t.shape.headD 0 }

/-- Strict lexicographic order on coordinate tuples: the order in which a
coalesced torch sparse tensor stores its entries. -/
def lexLt : List ℕ → List ℕ → Bool
  | [], [] => false
  | [], _ :: _ => true
  | _ :: _, [] => false
  | a :: as, b :: bs => if a < b then true else if b < a then false else lexLt as bs

/-- Insert an (index, values) entry into a lexicographically sorted entry
list, after all strictly smaller indices. -/
def insertEntry (x : List ℕ × List ℚ) :
    List (List ℕ × List ℚ) → List (List ℕ × List ℚ)
  | [] => [x]
  | y :: ys => if lexLt y.1 x.1 then y :: insertEntry x ys else x :: y :: ys

/-- Insertion sort of entries by lexicographic index order. -/
def sortEntries : List (List ℕ × List ℚ) → List (List ℕ × List ℚ)
  | [] => []
  | x :: xs => insertEntry x (sortEntries xs)

/-- Merge runs of entries with equal coordinates, summing their value rows
elementwise, as torch coalescing does for duplicate coordinates. -/
def mergeEntries : List (List ℕ × List ℚ) → List (List ℕ × List ℚ)
  | [] => []
  | x :: xs =>
    match mergeEntries xs with
    | [] => [x]
    | y :: ys =>
      if x.1 = y.1 then (x.1, List.zipWith (· + ·) x.2 y.2) :: ys
      else x :: y :: ys

/-- Tensor.coalesce: sort the stored entries by index and sum duplicates. -/
def coalesceT (t : TorchSparse) : TorchSparse :=
  { shape := t.shape,
    sparseIndices :=
      (mergeEntries (sortEntries (t.sparseIndices.zip t.values))).map Prod.fst,
    values :=
      (mergeEntries (sortEntries (t.sparseIndices.zip t.values))).map Prod.snd,
    scalarValues := t.scalarValues }

/-- spconv_to_torch_sparse (sparse_utils.py lines 34-56): the torch shape is
[batch_size] + spatial_shape + [features.shape[-1]], and the constructed COO
tensor is coalesced. -/
def spconv_to_torch_sparse (s : SparseConvTensor) : TorchSparse :=
  coalesceT
    { shape := [s.batchSize] ++ s.spatialShape ++ [(s.features.headD []).length],
      sparseIndices := s.indices,
      values := s.features,
      scalarValues := false }

/-- A coalesced tensor stores its index tuples in strictly increasing
lexicographic order, with no duplicates. -/
def strictSorted : List (List ℕ) → Bool
  | [] => true
  | [_] => true
  | a :: b :: rest => lexLt a b && strictSorted (b :: rest)

theorem lexLt_irrefl : ∀ a : List ℕ, lexLt a a = false := by
  intro a
  induction a with
  | nil => rfl
  | cons x as ih => simp [lexLt, lt_irrefl, ih]

theorem lexLt_asymm : ∀ a b : List ℕ, lexLt a b = true → lexLt b a = false := by
  intro a
  induction a with
  | nil =>
    intro b hb
    cases b with
    | nil => simp [lexLt] at hb
    | cons y bs => simp [lexLt]
  | cons x as ih =>
    intro b hb
    cases b with
    | nil => simp [lexLt] at hb
    | cons y bs =>
      simp only [lexLt] at hb ⊢
      by_cases h1 : x < y
      · have h2 : ¬ y < x := by omega
        simp [h1, h2]
      · by_cases h2 : y < x
        · simp [h1, h2] at hb
        · simp only [if_neg h1, if_neg h2] at hb
          simp only [if_neg h2, if_neg h1]
          exact ih bs hb

theorem strictSorted_tail (a : List ℕ) (rest : List (List ℕ))
    (h : strictSorted (a :: rest) = true) : strictSorted rest = true := by
  cases rest with
  | nil => rfl
  | cons b r =>
    have := h
    simp only [strictSorted, Bool.and_eq_true] at this
    exact this.2

theorem strictSorted_head (a b : List ℕ) (rest : List (List ℕ))
    (h : strictSorted (a :: b :: rest) = true) : lexLt a b = true := by
  simp only [strictSorted, Bool.and_eq_true] at h
  exact h.1

theorem sortEntries_sorted_id :
    ∀ l : List (List ℕ × List ℚ), strictSorted (l.map Prod.fst) = true →
      sortEntries l = l := by
  intro l
  induction l with
  | nil => intro _; rfl
  | cons x xs ih =>
    intro h
    have htail : strictSorted (xs.map Prod.fst) = true :=
      strictSorted_tail _ _ (by simpa using h)
    have hxs : sortEntries xs = xs := ih htail
    show insertEntry x (sortEntries xs) = x :: xs
    rw [hxs]
    cases xs with
    | nil => rfl
    | cons y ys =>
      have hxy : lexLt x.1 y.1 = true := strictSorted_head _ _ _ (by simpa using h)
      have hyx : lexLt y.1 x.1 = false := lexLt_asymm _ _ hxy
      show (if lexLt y.1 x.1 then y :: insertEntry x ys else x :: y :: ys) = x :: y :: ys
      rw [hyx]
      simp

theorem mergeEntries_sorted_id :
    ∀ l : List (List ℕ × List ℚ), strictSorted (l.map Prod.fst) = true →
      mergeEntries l = l := by
  intro l
  induction l with
  | nil => intro _; rfl
  | cons x xs ih =>
    intro h
    have htail : strictSorted (xs.map Prod.fst) = true :=
      strictSorted_tail _ _ (by simpa using h)
    have hxs : mergeEntries xs = xs := ih htail
    cases xs with
    | nil => simp [mergeEntries]
    | cons y ys =>
      have hxy : lexLt x.1 y.1 = true := strictSorted_head _ _ _ (by simpa using h)
      have hne : x.1 ≠ y.1 := by
        intro he
        rw [he] at hxy
        rw [lexLt_irrefl] at hxy
        exact Bool.false_ne_true hxy
      have hstep : mergeEntries (x :: y :: ys) =
          match mergeEntries (y :: ys) with
          | [] => [x]
          | z :: zs =>
            if x.1 = z.1 then (x.1, List.zipWith (· + ·) x.2 z.2) :: zs
            else x :: z :: zs := rfl
      rw [hstep, hxs]
      dsimp only
      rw [if_neg hne]

theorem coalesceT_sorted_id (t : TorchSparse)
    (hlen : t.sparseIndices.length = t.values.length)
    (hsorted : strictSorted t.sparseIndices = true) :
    coalesceT t = t := by
  have hfst : (t.sparseIndices.zip t.values).map Prod.fst = t.sparseIndices :=
    List.map_fst_zip _ _ (le_of_eq hlen)
  have hsnd : (t.sparseIndices.zip t.values).map Prod.snd = t.values :=
    List.map_snd_zip _ _ (ge_of_eq hlen)
  have hs : strictSorted ((t.sparseIndices.zip t.values).map Prod.fst) = true := by
    rw [hfst]
    exact hsorted
  have h1 : sortEntries (t.sparseIndices.zip t.values) = t.sparseIndices.zip t.values :=
    sortEntries_sorted_id _ hs
  have h2 : mergeEntries (t.sparseIndices.zip t.values) = t.sparseIndices.zip t.values :=
    mergeEntries_sorted_id _ hs
  unfold coalesceT
  rw [h1, h2, hfst, hsnd]

/-- C9 (amended): the spconv round trip reproduces a coalesced torch sparse
tensor of shape [batch, H, W, channels] exactly -- batch index still the
leading coordinate, entries and values unchanged -- whenever the channel
dimension is a dense dimension (2-D values of width equal to the channel
count).  For fully sparse 4-D tensors the channel coordinate is dropped, so
the round trip is not the identity when channels exceed 1 (see the
counterexample). -/
theorem C9_spconv_roundtrip (t : TorchSparse) (B H W C : ℕ)
    (hshape : t.shape = [B, H, W, C])
    (hscalar : t.scalarValues = false)
    (hlen : t.sparseIndices.length = t.values.length)
    (hne : t.values ≠ [])
    (hwidth : ∀ v ∈ t.values, v.length = C)
    (hsorted : strictSorted t.sparseIndices = true) :
    spconv_to_torch_sparse (torch_sparse_to_spconv t) = t := by
  obtain ⟨sh, si, vals, sv⟩ := t
  simp only at hshape hscalar hlen hne hwidth hsorted
  subst hscalar
  subst hshape
  have hhead : (vals.headD []).length = C := by
    cases vals with
    | nil => exact absurd rfl hne
    | cons v0 vrest => exact hwidth v0 (List.mem_cons_self _ _)
  show spconv_to_torch_sparse
      { features := vals, indices := si,
        spatialShape := (([B, H, W, C].drop 1).dropLast : List ℕ),
        batchSize := [B, H, W, C].headD 0 } =
    ⟨[B, H, W, C], si, vals, false⟩
  unfold spconv_to_torch_sparse
  rw [coalesceT_sorted_id _ hlen hsorted]
  simp only [TorchSparse.mk.injEq]
  refine ⟨?_, trivial, trivial, trivial⟩
  rw [hhead]
  rfl

/-- Concrete fully sparse tensor driving the C9 counterexample: shape
[1, 1, 1, 2] with two stored scalar values in channels 0 and 1. -/
def fullySparseTwoChannel : TorchSparse :=
  { shape := [1, 1, 1, 2],
    sparseIndices := [[0, 0, 0, 0], [0, 0, 0, 1]],
    values := [[1], [2]],
    scalarValues := true }

/-- C9 counterexample: for the fully sparse (1-D values) tensor of shape
[1, 1, 1, 2], the conversion drops the channel coordinate, and the round
trip returns a tensor of shape [1, 1, 1, 1]: the original tensor is not
reproduced, so the round-trip claim fails for fully sparse tensors with
more than one channel. -/
theorem C9_counterexample :
    (spconv_to_torch_sparse (torch_sparse_to_spconv fullySparseTwoChannel)).shape ≠
      fullySparseTwoChannel.shape := by
  decide

/-- Concrete hybrid tensor (channel dimension dense) for the C9 witness. -/
def coalescedHybrid : TorchSparse :=
  { shape := [1, 2, 2, 1],
    sparseIndices := [[0, 0, 0], [0, 1, 1]],
    values := [[3], [4]],
    scalarValues := false }

theorem C9_witness :
    (coalescedHybrid.shape = [1, 2, 2, 1] ∧
     coalescedHybrid.scalarValues = false ∧
     coalescedHybrid.sparseIndices.length = coalescedHybrid.values.length ∧
     coalescedHybrid.values ≠ [] ∧
     (∀ v ∈ coalescedHybrid.values, v.length = 1) ∧
     strictSorted coalescedHybrid.sparseIndices = true) ∧
    spconv_to_torch_sparse (torch_sparse_to_spconv coalescedHybrid) =
      coalescedHybrid := by
  have hwidth : ∀ v ∈ coalescedHybrid.values, v.length = 1 := by
    intro v hv
    simp only [coalescedHybrid] at hv
    fin_cases hv <;> rfl
  refine ⟨⟨rfl, rfl, rfl, by decide, hwidth, by decide⟩, ?_⟩
  exact C9_spconv_roundtrip coalescedHybrid 1 2 2 1 rfl rfl rfl (by decide)
    hwidth (by decide)

/-- SparseBottleneck.__init__ (blocks.py lines 41-58): its first statement
raises NotImplementedError("Not tested") unconditionally, before super()
is called or any layer is built. -/
def SparseBottleneckInit (conv_type : String) (inplanes planes stride : ℕ)
    (downsample : Option Unit)
    (base_width reduce_first dilation first_dilation : ℕ) :
    Except String Unit :=
  Except.error "Not tested"

/-- C10: every combination of constructor arguments makes SparseBottleneck
construction fail with NotImplementedError("Not tested") before any layer is
built; the sparse bottleneck block can never be instantiated. -/
theorem C10_sparse_bottleneck_never_constructed
    (conv_type : String) (inplanes planes stride : ℕ)
    (downsample : Option Unit)
    (base_width reduce_first dilation first_dilation : ℕ) :
    SparseBottleneckInit conv_type inplanes planes stride downsample
      base_width reduce_first dilation first_dilation =
      Except.error "Not tested" :=
  rfl

end Emsim
